import Mathlib

/-!
Verification of the core of the `tui-rs-tree-widget` crate against its
natural-language specification.

The development shallowly embeds the Rust source:

* `src/flatten.rs` — `flatten` / `internal` (tree flattening gated by the open set);
* `src/lib.rs` — `TreeState` and its navigation operations, and the scroll-window
  adjustment performed in `Tree::render`;
* `src/reflow.rs` — `WordWrapper::next_line`, `LineTruncator::next_line` and
  `trim_offset`.

Machine integers (`usize`, `u16`) are modelled as `Nat`; the Rust code only uses
saturating or provably non-underflowing arithmetic on them, which `Nat`
subtraction models exactly, and the widths involved are far below `2^16`, so no
wrap-around modulus is needed.  The `unicode_width` and `char::is_whitespace`
library facts about a grapheme cluster are carried as data on the grapheme
(fields `width` and `ws`), since the algorithms consult them only through those
two library calls.
-/

/-! ## Tree item model (`src/lib.rs`, `TreeItem`)

A `TreeItem` holds a styled text block (`text: Text`, a list of lines) and a
list of children.  The `style` field and the per-span styling of the text play
no role in any claim (they are passed through unchanged to the renderer), so a
line is carried as its content `String` only.  `Rc<RefCell<_>>` sharing is
irrelevant to the pure functions modelled here (flattening clones handles and
never mutates), so `SharedTreeItem` is the item itself. -/

inductive TreeItem where
  | mk (text : List String) (children : List TreeItem)

/-- Field accessor for the text lines of a `TreeItem`. -/
def TreeItem.text : TreeItem → List String
  | .mk t _ => t

/-- Field accessor for the children of a `TreeItem`. -/
def TreeItem.children : TreeItem → List TreeItem
  | .mk _ c => c

/-- `TreeItem::height`: `self.text.lines.len()`. -/
def TreeItem.height (item : TreeItem) : Nat :=
  item.text.length

/-- `Flattened` from `src/flatten.rs`: one visible entry, pairing the path
identifier with the item handle. -/
structure Flattened where
  identifier : List Nat
  item : TreeItem

/-- `Flattened::depth`: `self.identifier.len() - 1`. -/
def Flattened.depth (f : Flattened) : Nat :=
  f.identifier.length - 1

/-! ## Flattening (`src/flatten.rs`)

`internal` walks the sibling list with an explicit position counter (the Rust
code uses `items.into_iter().enumerate()`; the counter argument here plays the
role of the enumeration index, starting at 0).  `internalItem` is the
recursive descent into one item's children (Rust recurses with
`internal(opened, &item.borrow().children, &child_identifier)`); it is split
out only so that Lean accepts the nested structural recursion. -/

mutual
def internal (opened : List (List Nat)) (current : List Nat) (index : Nat) :
    List TreeItem → List Flattened
  | [] => []
  | item :: rest =>
      ({ identifier := current ++ [index], item := item } ::
        (if current ++ [index] ∈ opened then
          internalItem opened (current ++ [index]) item
        else []))
      ++ internal opened current (index + 1) rest

def internalItem (opened : List (List Nat)) (childIdentifier : List Nat) :
    TreeItem → List Flattened
  | .mk _ children => internal opened childIdentifier 0 children
end

/-- `flatten(opened, items)`: flat list of all visible items. -/
def flatten (opened : List (List Nat)) (items : List TreeItem) : List Flattened :=
  internal opened [] 0 items

/-! ## Identifier utilities

`src/lib.rs` declares `mod identifier` and re-exports `get_without_leaf`, but
`identifier.rs` itself is not among the provided source files. -/

/-- Modelled from the spec: `identifier.rs` is missing from the sources; §4.1
says `without_leaf(identifier) -> (parent_identifier, leaf_index)` "removes the
last element; fails (returns an empty parent) when given an empty identifier".
-/
def getWithoutLeaf (identifier : List Nat) : List Nat × Option Nat :=
  (identifier.dropLast, identifier.getLast?)

/-! ## Navigation state (`src/lib.rs`, `TreeState`)

The Rust `opened: HashSet<TreeIdentifierVec>` is modelled as a duplicate-free
list used purely through membership, insertion and removal; `flatten` and the
rendering code consult it only via `contains`, so iteration order is
irrelevant.  Operations that return a `bool` in Rust return the new state
paired with that boolean. -/

structure TreeState where
  offset : Nat
  opened : List (List Nat)
  selected : List Nat

instance : Inhabited TreeState := ⟨⟨0, [], []⟩⟩

/-- `TreeState::default()`. -/
def TreeState.default : TreeState := ⟨0, [], []⟩

/-- `TreeState::select`: sets the selection; an empty selection resets the
scroll offset to 0. -/
def TreeState.select (s : TreeState) (identifier : List Nat) : TreeState :=
  let s := { s with selected := identifier }
  if s.selected.isEmpty then { s with offset := 0 } else s

/-- `TreeState::open`: inserting the empty identifier is rejected; otherwise
`HashSet::insert` returns whether the identifier was previously absent. -/
def TreeState.openNode (s : TreeState) (identifier : List Nat) : TreeState × Bool :=
  if identifier.isEmpty then (s, false)
  else if identifier ∈ s.opened then (s, false)
  else ({ s with opened := identifier :: s.opened }, true)

/-- `TreeState::close`: `HashSet::remove` returns whether the identifier was
present. -/
def TreeState.closeNode (s : TreeState) (identifier : List Nat) : TreeState × Bool :=
  if identifier ∈ s.opened then
    ({ s with opened := s.opened.filter (fun o => o ≠ identifier) }, true)
  else (s, false)

/-- `TreeState::toggle`. -/
def TreeState.toggle (s : TreeState) (identifier : List Nat) : TreeState :=
  if identifier ∈ s.opened then (s.closeNode identifier).1
  else (s.openNode identifier).1

/-- `TreeState::toggle_selected`. -/
def TreeState.toggleSelected (s : TreeState) : TreeState :=
  s.toggle s.selected

/-- `TreeState::close_all`. -/
def TreeState.closeAll (s : TreeState) : TreeState :=
  { s with opened := [] }

/-- `TreeState::select_first`. -/
def TreeState.selectFirst (s : TreeState) : TreeState :=
  s.select [0]

/-- `TreeState::select_last`. -/
def TreeState.selectLast (s : TreeState) (items : List TreeItem) : TreeState :=
  let visible := flatten s.opened items
  let newIdentifier := ((visible.getLast?).map Flattened.identifier).getD []
  s.select newIdentifier

/-- `TreeState::key_up`. -/
def TreeState.keyUp (s : TreeState) (items : List TreeItem) : TreeState :=
  let visible := flatten s.opened items
  let currentIndex := visible.findIdx? (fun o => o.identifier = s.selected)
  let newIndex := match currentIndex with
    | none => 0
    | some i => min (i - 1) (visible.length - 1)
  let newIdentifier := ((visible[newIndex]?).map Flattened.identifier).getD []
  s.select newIdentifier

/-- `TreeState::key_down`. -/
def TreeState.keyDown (s : TreeState) (items : List TreeItem) : TreeState :=
  let visible := flatten s.opened items
  let currentIndex := visible.findIdx? (fun o => o.identifier = s.selected)
  let newIndex := match currentIndex with
    | none => 0
    | some i => min (i + 1) (visible.length - 1)
  let newIdentifier := ((visible[newIndex]?).map Flattened.identifier).getD []
  s.select newIdentifier

/-- `TreeState::key_left`: close the selected node; if it was not open, select
its parent. -/
def TreeState.keyLeft (s : TreeState) : TreeState :=
  let selected := s.selected
  let closed := s.closeNode selected
  if closed.2 then closed.1
  else closed.1.select (getWithoutLeaf selected).1

/-- `TreeState::key_right`: open the selected node. -/
def TreeState.keyRight (s : TreeState) : TreeState :=
  (s.openNode s.selected).1

/-- One navigation-state operation, for quantifying over arbitrary operation
sequences. -/
inductive Op where
  | select (identifier : List Nat)
  | openNode (identifier : List Nat)
  | closeNode (identifier : List Nat)
  | toggle (identifier : List Nat)
  | toggleSelected
  | closeAll
  | selectFirst
  | selectLast (items : List TreeItem)
  | keyUp (items : List TreeItem)
  | keyDown (items : List TreeItem)
  | keyLeft
  | keyRight

/-- Apply one operation to a navigation state (discarding returned booleans). -/
def applyOp (s : TreeState) : Op → TreeState
  | .select identifier => s.select identifier
  | .openNode identifier => (s.openNode identifier).1
  | .closeNode identifier => (s.closeNode identifier).1
  | .toggle identifier => s.toggle identifier
  | .toggleSelected => s.toggleSelected
  | .closeAll => s.closeAll
  | .selectFirst => s.selectFirst
  | .selectLast items => s.selectLast items
  | .keyUp items => s.keyUp items
  | .keyDown items => s.keyDown items
  | .keyLeft => s.keyLeft
  | .keyRight => s.keyRight

/-! ## Scroll-window adjustment (`src/lib.rs`, `Tree::render`, lines 498–519)

The adjustment only consults the rendered height of each visible entry, so it
is modelled over the list of those heights
(`heights = visible.map (TreeItem.height ∘ Flattened.item)`).  The Rust `for`
loop over `visible.iter().skip(start)` is `growEnd`; the inner
`while height > available_height` eviction loop is `shrinkFront` (it runs at
most `end - start` times, which is passed as structural fuel: the sum
invariant `height = Σ heights[start..end)` makes the loop stop at the latest
when `start` reaches `end`, where `height = 0`); the outer
`while selected_index >= end` loop is `extendToSel`, whose fuel
`selected + 1 - end` is exact since `end` grows by one per iteration. -/

def growEnd (avail : Nat) : List Nat → Nat → Nat → Nat × Nat
  | [], e, h => (e, h)
  | x :: rest, e, h =>
      if avail < h + x then (e, h) else growEnd avail rest (e + 1) (h + x)

def shrinkFront (heights : List Nat) (avail : Nat) : Nat → Nat → Nat → Nat × Nat
  | 0, s, h => (s, h)
  | fuel + 1, s, h =>
      if avail < h then shrinkFront heights avail fuel (s + 1) (h - heights.getD s 0)
      else (s, h)

def extendToSel (heights : List Nat) (avail sel : Nat) : Nat → Nat → Nat → Nat → Nat × Nat
  | 0, s, e, _ => (s, e)
  | fuel + 1, s, e, h =>
      if e ≤ sel then
        let h := h + heights.getD e 0
        let e := e + 1
        let sh := shrinkFront heights avail (e - s) s h
        extendToSel heights avail sel fuel sh.1 e sh.2
      else (s, e)

/-- The scroll-window adjustment of `Tree::render`: from the previous offset,
the selected index and the available height, compute the final `[start, end)`
window (`start` is stored back into `state.offset`). -/
def windowAdjust (heights : List Nat) (offset sel avail : Nat) : Nat × Nat :=
  let start := min offset sel
  let ge := growEnd avail (heights.drop start) start 0
  extendToSel heights avail sel (sel + 1 - ge.1) start ge.1 ge.2

/-! ## Line composition (`src/reflow.rs`)

A `StyledGrapheme` is one user-perceived character with a style; the style is
never inspected by the composers, so it is dropped.  `width` stands for
`unicode_width`'s `symbol.width()` and `ws` for
`symbol.chars().all(char::is_whitespace) && symbol != NBSP` — the only two
library facts the composers consult about a symbol. -/

structure Grapheme where
  symbol : String
  width : Nat
  ws : Bool
deriving DecidableEq

/-- Summed display width of a composed line
(`line.iter().map(|g| g.symbol.width()).sum()`). -/
def lineWidth (l : List Grapheme) : Nat :=
  (l.map Grapheme.width).sum

/-- `tui::layout::Alignment` (the name `Alignment` is taken by Mathlib). -/
inductive TextAlignment where
  | left
  | center
  | right
deriving DecidableEq

/-- The mutable local state of the per-line loop inside
`WordWrapper::next_line` (lines 85–94 of `src/reflow.rs`): the wrapped lines
produced so far, the unfinished current line, the partially processed word,
the pending whitespace run, and their widths. -/
structure WrapSt where
  wrapped : List (List Grapheme)
  cur : List Grapheme
  curW : Nat
  word : List Grapheme
  wordW : Nat
  wsBuf : List Grapheme
  wsW : Nat
  seenNonWs : Bool
deriving DecidableEq

def initWrapSt : WrapSt :=
  { wrapped := [], cur := [], curW := 0, word := [], wordW := 0,
    wsBuf := [], wsW := 0, seenNonWs := false }

/-- The `while let Some(grapheme) = first_whitespace` loop (lines 145–155):
pop buffered whitespace from the front, subtracting each popped width from
`whitespace_width`, until one wider than the remaining budget is met (that one
stays popped) or the buffer is exhausted.  Returns the remaining buffer, the
new `whitespace_width`, and whether the buffer was exhausted
(`first_whitespace.is_none()`). -/
def consumeWs : List Grapheme → Nat → Nat → List Grapheme × Nat × Bool
  | [], wsW, _ => ([], wsW, true)
  | g :: rest, wsW, remaining =>
      if remaining < g.width then (rest, wsW - g.width, false)
      else consumeWs rest (wsW - g.width) (remaining - g.width)

/-- The four-way flush condition of lines 105–111. -/
def flushCond (maxW : Nat) (trim : Bool) (st : WrapSt) (g : Grapheme) : Bool :=
  (st.seenNonWs && g.ws)
    || (decide (maxW < st.wordW + g.width) && st.cur.isEmpty && trim)
    || (decide (maxW < st.wsW + g.width) && st.cur.isEmpty && trim)
    || (decide (maxW < st.wordW + st.wsW + g.width) && st.cur.isEmpty && !trim)

/-- The flush body of lines 113–128: whitespaces are appended only when the
line already has content or trimming is off; the word is always appended; both
buffers are cleared. -/
def doFlush (trim : Bool) (st : WrapSt) : WrapSt :=
  let first :=
    if !st.cur.isEmpty || !trim then (st.cur ++ st.wsBuf, st.curW + st.wsW)
    else (st.cur, st.curW)
  { st with cur := first.1 ++ st.word, curW := first.2 + st.wordW,
            word := [], wordW := 0, wsBuf := [], wsW := 0 }

/-- The seal condition of lines 133–135 (note `>=`, and that the second
disjunct requires a positive symbol width). -/
def sealCond (maxW : Nat) (st : WrapSt) (g : Grapheme) : Bool :=
  decide (maxW ≤ st.curW)
    || (decide (maxW ≤ st.curW + st.wsW + st.wordW) && decide (0 < g.width))

/-- Lines 163–172: append the symbol to the whitespace or word buffer and
record whether it was non-whitespace. -/
def appendSym (st : WrapSt) (g : Grapheme) : WrapSt :=
  if g.ws then
    { st with wsW := st.wsW + g.width, wsBuf := st.wsBuf ++ [g], seenNonWs := false }
  else
    { st with wordW := st.wordW + g.width, word := st.word ++ [g], seenNonWs := true }

/-- One iteration of the `for StyledGrapheme { .. } in line_symbols` loop of
`WordWrapper::next_line` (lines 95–173): skip an over-wide symbol; maybe
flush; maybe seal the current line (computing the remaining-width budget
before the push, then consuming leading whitespace against it, and skipping a
whitespace symbol entirely when the buffer was exhausted — the `continue` of
line 159); finally buffer the symbol. -/
def wrapStep (maxW : Nat) (trim : Bool) (st : WrapSt) (g : Grapheme) : WrapSt :=
  if maxW < g.width then st
  else
    let st := if flushCond maxW trim st g then doFlush trim st else st
    if sealCond maxW st g then
      let remaining := maxW - st.curW
      let st1 := { st with wrapped := st.wrapped ++ [st.cur], cur := [], curW := 0 }
      let cw := consumeWs st1.wsBuf st1.wsW remaining
      let st2 := { st1 with wsBuf := cw.1, wsW := cw.2.1 }
      if g.ws && cw.2.2 then st2 else appendSym st2 g
    else appendSym st g

/-- The end-of-line handling of `WordWrapper::next_line` (lines 176–190):
append the remaining buffered parts (pushing a single empty line when the
line and word are empty but whitespace is pending, and appending the pending
whitespace only when not trimming or the line is non-empty), push the last
unfinished line if non-empty, and emit a single empty line when nothing was
produced at all. -/
def wrapFinish (trim : Bool) (st : WrapSt) : List (List Grapheme) :=
  let tail :=
    if !st.word.isEmpty || !st.wsBuf.isEmpty then
      if st.cur.isEmpty && st.word.isEmpty then (st.wrapped ++ [[]], st.cur ++ st.word)
      else if !trim || !st.cur.isEmpty then (st.wrapped, st.cur ++ st.wsBuf ++ st.word)
      else (st.wrapped, st.cur ++ st.word)
    else (st.wrapped, st.cur)
  let wrapped := if !tail.2.isEmpty then tail.1 ++ [tail.2] else tail.1
  if wrapped.isEmpty then [[]] else wrapped

/-- The whole-line preprocessing of `WordWrapper::next_line` for one logical
line (lines 85–190): run the symbol loop over the line's graphemes, then the
end-of-line handling. -/
def wrapLine (maxW : Nat) (trim : Bool) (syms : List Grapheme) : List (List Grapheme) :=
  wrapFinish trim (syms.foldl (wrapStep maxW trim) initWrapSt)

/-- The word-wrap composer state (`WordWrapper`): pending input lines, the
width bound, the buffered wrapped lines of the line being emitted, the current
alignment and the trim flag. -/
structure WordWrapperState where
  inputLines : List (List Grapheme × TextAlignment)
  maxLineWidth : Nat
  wrappedLines : Option (List (List Grapheme))
  currentAlignment : TextAlignment
  trim : Bool

/-- `WordWrapper::next_line`: with a zero width bound, return `None` at once;
otherwise pop the next buffered wrapped line, or pull and preprocess the next
input line (`wrapLine` always yields at least one line — `wrapLine_ne_nil` —
so the Rust retry loop runs its body at most once per pulled input line). -/
def wwNextLine (s : WordWrapperState) :
    Option (List Grapheme × Nat × TextAlignment) × WordWrapperState :=
  if s.maxLineWidth = 0 then (none, s)
  else
    match s.wrappedLines with
    | some (l :: rest) =>
        (some (l, lineWidth l, s.currentAlignment), { s with wrappedLines := some rest })
    | _ =>
        match s.inputLines with
        | [] => (none, s)
        | (syms, a) :: more =>
            match wrapLine s.maxLineWidth s.trim syms with
            | [] =>
                (none,
                  { s with
                      inputLines := more
                      currentAlignment := a
                      wrappedLines := some [] })
            | l :: rest =>
                (some (l, lineWidth l, a),
                  { s with
                      inputLines := more
                      currentAlignment := a
                      wrappedLines := some rest })

/-- All lines the word-wrap composer emits over its lifetime: each input line
contributes its `wrapLine` lines in order (with the recomputed width and the
line's alignment), and a zero width bound yields nothing. -/
def wordWrapAll (maxW : Nat) (trim : Bool)
    (lines : List (List Grapheme × TextAlignment)) : List (List Grapheme × Nat × TextAlignment) :=
  if maxW = 0 then []
  else lines.flatMap (fun la => (wrapLine maxW trim la.1).map (fun l => (l, lineWidth l, la.2)))

/-- The empty replacement symbol `""` produced by the truncator's offset
consumption (`symbol = ""`): its width is 0 and `"".chars().all` holds
vacuously. -/
def emptyGrapheme : Grapheme :=
  { symbol := "", width := 0, ws := true }

/-- `trim_offset` (lines 308–320) applied to a single grapheme cluster: the
loop compares the whole grapheme's width against the offset, so the result is
`""` when the width fits inside the offset and the untouched grapheme
otherwise.  (`LineTruncator` only calls it with `offset < width`.) -/
def trimOffsetG (g : Grapheme) (offset : Nat) : Grapheme :=
  if g.width ≤ offset then emptyGrapheme else g

/-- The symbol loop of `LineTruncator::next_line` (lines 265–291): skip
over-wide symbols, stop at the first symbol that would overflow the bound,
otherwise consume the remaining horizontal offset (left alignment only) and
emit the symbol. -/
def truncGo (maxW : Nat) (align : TextAlignment) : List Grapheme → Nat → Nat → List Grapheme
  | [], _, _ => []
  | g :: rest, curW, hOff =>
      if maxW < g.width then truncGo maxW align rest curW hOff
      else if maxW < curW + g.width then []
      else
        let gOut :=
          if hOff = 0 ∨ align ≠ TextAlignment.left then (g, hOff)
          else if hOff < g.width then (trimOffsetG g hOff, 0)
          else (emptyGrapheme, hOff - g.width)
        gOut.1 :: truncGo maxW align rest (curW + gOut.1.width) gOut.2

/-- The truncator's processing of one logical line. -/
def truncLine (maxW hOff : Nat) (align : TextAlignment) (syms : List Grapheme) : List Grapheme :=
  truncGo maxW align syms 0 hOff

/-- The truncate composer state (`LineTruncator`). -/
structure LineTruncatorState where
  inputLines : List (List Grapheme × TextAlignment)
  maxLineWidth : Nat
  horizontalOffset : Nat

/-- `LineTruncator::next_line`: with a zero width bound, return `None` at
once; otherwise emit exactly one width-bounded line per input line, `None`
when the input is exhausted. -/
def truncNextLine (s : LineTruncatorState) :
    Option (List Grapheme × Nat × TextAlignment) × LineTruncatorState :=
  if s.maxLineWidth = 0 then (none, s)
  else
    match s.inputLines with
    | [] => (none, s)
    | (syms, a) :: more =>
        let line := truncLine s.maxLineWidth s.horizontalOffset a syms
        (some (line, lineWidth line, a), { s with inputLines := more })

/-- All lines the truncate composer emits over its lifetime. -/
def truncAll (maxW hOff : Nat)
    (lines : List (List Grapheme × TextAlignment)) : List (List Grapheme × Nat × TextAlignment) :=
  if maxW = 0 then []
  else lines.map (fun la =>
    let l := truncLine maxW hOff la.2 la.1
    (l, lineWidth l, la.2))

/-! ## Concrete inputs used by examples, witnesses and counterexamples -/

/-- A childless tree item with a one-line label. -/
def leafItem (s : String) : TreeItem := .mk [s] []

/-- The example tree of the claims and of the tests in `src/flatten.rs`:
roots `[a, b(children c, d(e, f), g), h]`. -/
def exampleItems : List TreeItem :=
  [leafItem "a",
   .mk ["b"] [leafItem "c", .mk ["d"] [leafItem "e", leafItem "f"], leafItem "g"],
   leafItem "h"]

/-- Word-wrap composer state used as a concrete zero-width witness. -/
def wwStateZero : WordWrapperState :=
  { inputLines := [([⟨"a", 1, false⟩], TextAlignment.left)], maxLineWidth := 0,
    wrappedLines := none, currentAlignment := TextAlignment.left, trim := true }

/-- Truncate composer state used as a concrete zero-width witness. -/
def truncStateZero : LineTruncatorState :=
  { inputLines := [([⟨"a", 1, false⟩], TextAlignment.left)], maxLineWidth := 0,
    horizontalOffset := 0 }

/-- Summed height of the window `[s, e)` over the visible entries' heights. -/
def wsum (heights : List Nat) (s e : Nat) : Nat :=
  ((List.range' s (e - s)).map (fun i => heights.getD i 0)).sum

/-- Follows the claim's words for the truncate policy (C7): accumulate
fragments left to right until adding the next would exceed `max_width`, then
drop the rest of the logical line; a single fragment wider than `max_width` is
skipped.  `used` is the width accumulated so far. -/
def truncGreedySpec (maxW : Nat) : Nat → List Grapheme → List Grapheme
  | _, [] => []
  | used, g :: rest =>
      if maxW < g.width then truncGreedySpec maxW used rest
      else if maxW < used + g.width then []
      else g :: truncGreedySpec maxW (used + g.width) rest

/-- Follows the claim's words for C1: a node is a visible entry exactly when
it is a root (emitted unconditionally, at identifier `[index]`) or the
`index`-th child of a visible node whose identifier is a member of the open
set (visibility of a node is controlled by its parent's openness). -/
inductive VisibleAt (opened : List (List Nat)) (items : List TreeItem) :
    List Nat → TreeItem → Prop where
  | root (index : Nat) (item : TreeItem) (h : items[index]? = some item) :
      VisibleAt opened items [index] item
  | child (pid : List Nat) (parent : TreeItem) (index : Nat) (item : TreeItem)
      (hp : VisibleAt opened items pid parent) (hopen : pid ∈ opened)
      (h : parent.children[index]? = some item) :
      VisibleAt opened items (pid ++ [index]) item

/-- Whether the last processed symbol of a prefix was non-whitespace: the
value of `has_seen_non_whitespace` after the loop has consumed exactly that
prefix (when no seal has occurred). -/
def lastSeen : List Grapheme → Bool
  | [] => false
  | [g] => !g.ws
  | _ :: rest => lastSeen rest

/-- The loop invariant of `WordWrapper::next_line` for a logical line whose
graphemes all have positive width and whose total width fits in
`max_line_width`: after consuming the prefix `p`, no wrapped line has been
sealed, the three buffer widths track the buffers, `has_seen_non_whitespace`
reflects the last symbol of `p`, the whitespace buffer holds only whitespace
and the word buffer only non-whitespace, and the buffers concatenate to `p`
(without trimming) or to `p` minus its leading whitespace run (with
trimming, where before the first flush the whitespace buffer is exactly the
leading run). -/
structure WrapInv (trim : Bool) (p : List Grapheme) (st : WrapSt) : Prop where
  wrapped_nil : st.wrapped = []
  curW_eq : st.curW = lineWidth st.cur
  wsW_eq : st.wsW = lineWidth st.wsBuf
  wordW_eq : st.wordW = lineWidth st.word
  seen_eq : st.seenNonWs = lastSeen p
  wsBuf_ws : ∀ g ∈ st.wsBuf, g.ws = true
  word_nonws : ∀ g ∈ st.word, g.ws = false
  word_empty_of_not_seen : st.seenNonWs = false → st.word = []
  word_ne_of_seen : st.seenNonWs = true → st.word ≠ []
  cur_has_nonws : st.cur ≠ [] → ∃ g ∈ p, g.ws = false
  content_trim : trim = true →
    (st.cur = [] ∧ st.wsBuf = p.takeWhile Grapheme.ws ∧ st.word = p.dropWhile Grapheme.ws)
    ∨ (st.cur ≠ [] ∧ st.cur ++ st.wsBuf ++ st.word = p.dropWhile Grapheme.ws)
  content_notrim : trim = false → st.cur ++ st.wsBuf ++ st.word = p

/-- The failing logical line for the word-wrap width bound: "aaaa宽 x", where
`宽` (U+5BBD) is East-Asian-Wide, so `unicode_width` gives it display width 2;
the four `a`s, the space and the `x` have width 1; only the space is
whitespace.  No grapheme is wider than the bound 5, yet the total forces a
wrap. -/
def exC5line : List Grapheme :=
  [⟨"a", 1, false⟩, ⟨"a", 1, false⟩, ⟨"a", 1, false⟩, ⟨"a", 1, false⟩,
   ⟨"宽", 2, false⟩, ⟨" ", 1, true⟩, ⟨"x", 1, false⟩]

/-- A single ordinary space: a logical line of total width 1, used to refute
the untrimmed round-trip of C9. -/
def exC9line : List Grapheme := [⟨" ", 1, true⟩]

/-- A short ordinary line ("a b") used as the C9 witness input. -/
def exC9short : List Grapheme := [⟨"a", 1, false⟩, ⟨" ", 1, true⟩, ⟨"b", 1, false⟩]

/-! ## Helper lemmas about the navigation state -/

/-- `select` never touches the open set. -/
theorem TreeState.select_opened (s : TreeState) (identifier : List Nat) :
    (s.select identifier).opened = s.opened := by
  unfold TreeState.select
  dsimp only
  split <;> rfl

/-- `select` installs exactly the requested selection. -/
theorem TreeState.select_selected (s : TreeState) (identifier : List Nat) :
    (s.select identifier).selected = identifier := by
  unfold TreeState.select
  dsimp only
  split <;> rfl

/-- `open` can only add the (non-empty) requested identifier to the open set. -/
theorem TreeState.openNode_mem (s : TreeState) (identifier x : List Nat) :
    x ∈ (s.openNode identifier).1.opened → x ∈ s.opened ∨ (x = identifier ∧ identifier ≠ []) := by
  unfold TreeState.openNode
  split
  · exact fun h => Or.inl h
  · split
    · exact fun h => Or.inl h
    · intro h
      rcases List.mem_cons.mp h with h | h
      · exact Or.inr ⟨h, by simpa [List.isEmpty_iff] using ‹¬List.isEmpty identifier = true›⟩
      · exact Or.inl h

/-- `close` only removes elements from the open set. -/
theorem TreeState.closeNode_mem (s : TreeState) (identifier x : List Nat) :
    x ∈ (s.closeNode identifier).1.opened → x ∈ s.opened := by
  unfold TreeState.closeNode
  split
  · exact fun h => (List.mem_filter.mp h).1
  · exact fun h => h

/-- The empty identifier can never enter the open set in one operation. -/
theorem applyOp_empty_not_mem (s : TreeState) (op : Op) (h : [] ∉ s.opened) :
    [] ∉ (applyOp s op).opened := by
  have hopen : ∀ identifier, [] ∉ (s.openNode identifier).1.opened := by
    intro identifier hmem
    rcases s.openNode_mem identifier [] hmem with hh | hh
    · exact h hh
    · exact hh.2 hh.1.symm
  have hclose : ∀ identifier, [] ∉ (s.closeNode identifier).1.opened := by
    intro identifier hmem
    exact h (s.closeNode_mem identifier [] hmem)
  cases op with
  | select identifier => simpa [applyOp, TreeState.select_opened] using h
  | openNode identifier => exact hopen identifier
  | closeNode identifier => exact hclose identifier
  | toggle identifier =>
      simp only [applyOp, TreeState.toggle]
      split
      · exact hclose identifier
      · exact hopen identifier
  | toggleSelected =>
      simp only [applyOp, TreeState.toggleSelected, TreeState.toggle]
      split
      · exact hclose s.selected
      · exact hopen s.selected
  | closeAll => simp [applyOp, TreeState.closeAll]
  | selectFirst => simpa [applyOp, TreeState.selectFirst, TreeState.select_opened] using h
  | selectLast items => simpa [applyOp, TreeState.selectLast, TreeState.select_opened] using h
  | keyUp items => simpa [applyOp, TreeState.keyUp, TreeState.select_opened] using h
  | keyDown items => simpa [applyOp, TreeState.keyDown, TreeState.select_opened] using h
  | keyLeft =>
      simp only [applyOp, TreeState.keyLeft]
      split
      · exact hclose s.selected
      · intro hmem
        rw [TreeState.select_opened] at hmem
        exact hclose s.selected hmem
  | keyRight => exact hopen s.selected

/-- The invariant survives any operation sequence. -/
theorem foldl_applyOp_empty_not_mem (ops : List Op) :
    ∀ s : TreeState, [] ∉ s.opened → [] ∉ (ops.foldl applyOp s).opened := by
  induction ops with
  | nil => exact fun s h => h
  | cons op rest ih =>
      intro s h
      exact ih (applyOp s op) (applyOp_empty_not_mem s op h)

/-- C3: for every sequence of navigation-state operations starting from the
default state, the empty identifier is never a member of the open set, and
`open([])` always returns `false`. -/
theorem c3_empty_identifier_invariant :
    (∀ ops : List Op, [] ∉ (ops.foldl applyOp TreeState.default).opened)
    ∧ (∀ s : TreeState, (s.openNode []).2 = false) := by
  constructor
  · intro ops
    exact foldl_applyOp_empty_not_mem ops TreeState.default (by simp [TreeState.default])
  · intro s
    rfl

/-- C10: `open`, `close`, `toggle`, `close_all` and `key_right` leave the
selection and the scroll offset unchanged; only the open set is mutated. -/
theorem c10_frame_open_set_ops (s : TreeState) (identifier : List Nat) :
    ((s.openNode identifier).1.selected = s.selected
      ∧ (s.openNode identifier).1.offset = s.offset)
    ∧ ((s.closeNode identifier).1.selected = s.selected
      ∧ (s.closeNode identifier).1.offset = s.offset)
    ∧ ((s.toggle identifier).selected = s.selected
      ∧ (s.toggle identifier).offset = s.offset)
    ∧ (s.closeAll.selected = s.selected ∧ s.closeAll.offset = s.offset)
    ∧ (s.keyRight.selected = s.selected ∧ s.keyRight.offset = s.offset) := by
  have hopen : ∀ i, (s.openNode i).1.selected = s.selected ∧ (s.openNode i).1.offset = s.offset := by
    intro i
    simp only [TreeState.openNode]
    split
    · exact ⟨rfl, rfl⟩
    · split <;> exact ⟨rfl, rfl⟩
  have hclose : ∀ i,
      (s.closeNode i).1.selected = s.selected ∧ (s.closeNode i).1.offset = s.offset := by
    intro i
    simp only [TreeState.closeNode]
    split <;> exact ⟨rfl, rfl⟩
  refine ⟨hopen identifier, hclose identifier, ?_, ⟨rfl, rfl⟩, ?_⟩
  · simp only [TreeState.toggle]
    split
    · exact hclose identifier
    · exact hopen identifier
  · simp only [TreeState.keyRight]
    exact hopen s.selected

/-- C8: with `max_width == 0`, `next_line` of both composers returns `None`
immediately and leaves the state unchanged, so every subsequent call returns
`None` as well; no error occurs. -/
theorem c8_zero_width_empty_output (s : WordWrapperState) (t : LineTruncatorState)
    (hs : s.maxLineWidth = 0) (ht : t.maxLineWidth = 0) :
    wwNextLine s = (none, s) ∧ truncNextLine t = (none, t) := by
  constructor
  · unfold wwNextLine
    simp [hs]
  · unfold truncNextLine
    simp [ht]

/-- Witness for C8 at a concrete zero-width composer state. -/
theorem c8_zero_width_empty_output_witness :
    wwStateZero.maxLineWidth = 0 ∧ truncStateZero.maxLineWidth = 0
    ∧ (wwNextLine wwStateZero = (none, wwStateZero)
        ∧ truncNextLine truncStateZero = (none, truncStateZero)) :=
  ⟨rfl, rfl, c8_zero_width_empty_output wwStateZero truncStateZero rfl rfl⟩

/-! ## Navigation clamping and totality (C2, C4) -/

/-- What `key_up` selects, as a function of the flattened visible list. -/
theorem TreeState.keyUp_selected (s : TreeState) (items : List TreeItem) :
    (s.keyUp items).selected =
      (((flatten s.opened items)[
          (match (flatten s.opened items).findIdx? (fun o => o.identifier = s.selected) with
            | none => 0
            | some i => min (i - 1) ((flatten s.opened items).length - 1))]?).map
        Flattened.identifier).getD [] := by
  simp only [TreeState.keyUp, TreeState.select_selected]

/-- What `key_down` selects, as a function of the flattened visible list. -/
theorem TreeState.keyDown_selected (s : TreeState) (items : List TreeItem) :
    (s.keyDown items).selected =
      (((flatten s.opened items)[
          (match (flatten s.opened items).findIdx? (fun o => o.identifier = s.selected) with
            | none => 0
            | some i => min (i + 1) ((flatten s.opened items).length - 1))]?).map
        Flattened.identifier).getD [] := by
  simp only [TreeState.keyDown, TreeState.select_selected]

/-- An in-range lookup turned into membership of the identifier list. -/
theorem getD_identifier_mem (visible : List Flattened) (idx : Nat) (h : idx < visible.length) :
    ((visible[idx]?).map Flattened.identifier).getD [] ∈ visible.map Flattened.identifier := by
  rw [List.getElem?_eq_getElem h]
  exact List.mem_map_of_mem Flattened.identifier (visible.getElem_mem h)

/-- The index chosen by `key_up`/`key_down` is in range whenever the visible
list is non-empty. -/
theorem newIndex_lt (visible : List Flattened) (sel : List Nat) (hne : visible ≠ [])
    (f : Nat → Nat) :
    (match visible.findIdx? (fun o => o.identifier = sel) with
      | none => 0
      | some i => min (f i) (visible.length - 1)) < visible.length := by
  have hpos : 0 < visible.length := List.length_pos.mpr hne
  cases h : visible.findIdx? (fun o => o.identifier = sel) with
  | none => exact hpos
  | some i => exact lt_of_le_of_lt (Nat.min_le_right _ _) (by omega)

/-- C2: `key_up` and `key_down` never select an identifier outside the
non-empty visible list; a stale selection falls back to the entry at index 0
for both directions; a found index `i` moves to `min (i-1) (last)` resp.
`min (i+1) (last)`; and `key_up` from the first entry stays on the first
entry. -/
theorem c2_navigation_clamping (s : TreeState) (items : List TreeItem)
    (hne : flatten s.opened items ≠ []) :
    ((s.keyUp items).selected ∈ (flatten s.opened items).map Flattened.identifier
      ∧ (s.keyDown items).selected ∈ (flatten s.opened items).map Flattened.identifier)
    ∧ ((flatten s.opened items).findIdx? (fun o => o.identifier = s.selected) = none →
        ∀ e, (flatten s.opened items)[0]? = some e →
          (s.keyUp items).selected = e.identifier ∧ (s.keyDown items).selected = e.identifier)
    ∧ (∀ i, (flatten s.opened items).findIdx? (fun o => o.identifier = s.selected) = some i →
        (∀ e, (flatten s.opened items)[min (i - 1) ((flatten s.opened items).length - 1)]? = some e →
          (s.keyUp items).selected = e.identifier)
        ∧ (∀ e, (flatten s.opened items)[min (i + 1) ((flatten s.opened items).length - 1)]? = some e →
          (s.keyDown items).selected = e.identifier))
    ∧ (∀ e, (flatten s.opened items)[0]? = some e → s.selected = e.identifier →
        (s.keyUp items).selected = s.selected) := by
  refine ⟨⟨?_, ?_⟩, ?_, ?_, ?_⟩
  · rw [TreeState.keyUp_selected]
    exact getD_identifier_mem _ _ (newIndex_lt _ _ hne (fun i => i - 1))
  · rw [TreeState.keyDown_selected]
    exact getD_identifier_mem _ _ (newIndex_lt _ _ hne (fun i => i + 1))
  · intro hnone e he
    rw [TreeState.keyUp_selected, TreeState.keyDown_selected, hnone]
    simp [he]
  · intro i hi
    constructor
    · intro e he
      rw [TreeState.keyUp_selected, hi]
      simp [he]
    · intro e he
      rw [TreeState.keyDown_selected, hi]
      simp [he]
  · intro e he hsel
    cases hv : flatten s.opened items with
    | nil => exact absurd hv hne
    | cons v rest =>
        have hev : e = v := by
          rw [hv] at he
          exact (by simpa using he : v = e).symm
        have hfind : (flatten s.opened items).findIdx?
            (fun o => o.identifier = s.selected) = some 0 := by
          rw [hv]
          simp [List.findIdx?_cons, hsel, hev]
        rw [TreeState.keyUp_selected, hfind]
        simp [he, hsel]

/-- Witness for C2 on the example tree with the first root selected. -/
theorem c2_navigation_clamping_witness :
    flatten (TreeState.mk 0 [] [0]).opened exampleItems ≠ []
    ∧ ((TreeState.mk 0 [] [0]).keyUp exampleItems).selected
        ∈ (flatten (TreeState.mk 0 [] [0]).opened exampleItems).map Flattened.identifier := by
  have hne : flatten (TreeState.mk 0 [] [0]).opened exampleItems ≠ [] :=
    List.ne_nil_of_length_pos (by decide)
  exact ⟨hne, (c2_navigation_clamping (TreeState.mk 0 [] [0]) exampleItems hne).1.1⟩

/-- C4: every navigation operation is total (it is a Lean function), and the
lookup-sensitive operations degrade to a safe default within the same call:
the new selection is either the empty identifier ("no selection") or the
identifier of some currently visible entry, and on an empty item list
`key_up`, `key_down` and `select_last` all complete, selecting the empty
identifier. -/
theorem c4_total_safe_defaults (s : TreeState) (items : List TreeItem) :
    ((s.keyUp items).selected = []
      ∨ (s.keyUp items).selected ∈ (flatten s.opened items).map Flattened.identifier)
    ∧ ((s.keyDown items).selected = []
      ∨ (s.keyDown items).selected ∈ (flatten s.opened items).map Flattened.identifier)
    ∧ ((s.selectLast items).selected = []
      ∨ (s.selectLast items).selected ∈ (flatten s.opened items).map Flattened.identifier)
    ∧ ((s.keyUp []).selected = [] ∧ (s.keyDown []).selected = []
        ∧ (s.selectLast []).selected = []) := by
  refine ⟨?_, ?_, ?_, ?_, ?_, ?_⟩
  · cases hv : flatten s.opened items with
    | nil =>
        left
        rw [TreeState.keyUp_selected, hv]
        cases hf : ([] : List Flattened).findIdx? (fun o => o.identifier = s.selected) <;> simp
    | cons v rest =>
        right
        rw [← hv]
        rw [TreeState.keyUp_selected]
        exact getD_identifier_mem _ _ (newIndex_lt _ _ (by rw [hv]; exact List.cons_ne_nil v rest)
          (fun i => i - 1))
  · cases hv : flatten s.opened items with
    | nil =>
        left
        rw [TreeState.keyDown_selected, hv]
        cases hf : ([] : List Flattened).findIdx? (fun o => o.identifier = s.selected) <;> simp
    | cons v rest =>
        right
        rw [← hv]
        rw [TreeState.keyDown_selected]
        exact getD_identifier_mem _ _ (newIndex_lt _ _ (by rw [hv]; exact List.cons_ne_nil v rest)
          (fun i => i + 1))
  · have hsel : (s.selectLast items).selected =
        (((flatten s.opened items).getLast?).map Flattened.identifier).getD [] := by
      simp only [TreeState.selectLast, TreeState.select_selected]
    cases hv : (flatten s.opened items).getLast? with
    | none =>
        left
        rw [hsel, hv]
        rfl
    | some e =>
        right
        rw [hsel, hv]
        exact List.mem_map_of_mem Flattened.identifier (List.mem_of_getLast?_eq_some hv)
  · exact TreeState.select_selected s []
  · exact TreeState.select_selected s []
  · exact TreeState.select_selected s []

/-! ## Scroll-window invariant (C6) -/

theorem wsum_self (heights : List Nat) (s : Nat) : wsum heights s s = 0 := by
  simp [wsum]

theorem wsum_succ_right (heights : List Nat) {s e : Nat} (h : s ≤ e) :
    wsum heights s (e + 1) = wsum heights s e + heights.getD e 0 := by
  have h1 : e + 1 - s = (e - s) + 1 := by omega
  have h2 : s + 1 * (e - s) = e := by omega
  rw [wsum, h1, List.range'_concat, h2, List.map_append, List.sum_append]
  rfl

theorem wsum_succ_left (heights : List Nat) {s e : Nat} (h : s < e) :
    wsum heights s e = heights.getD s 0 + wsum heights (s + 1) e := by
  have h1 : e - s = (e - (s + 1)) + 1 := by omega
  rw [wsum, h1, List.range'_succ, List.map_cons, List.sum_cons, wsum]

theorem growEnd_spec (heights : List Nat) (avail : Nat) :
    ∀ (l : List Nat) (e h : Nat), l = heights.drop e → e ≤ heights.length → h ≤ avail →
      e ≤ (growEnd avail l e h).1
      ∧ (growEnd avail l e h).1 ≤ heights.length
      ∧ (growEnd avail l e h).2 = h + wsum heights e (growEnd avail l e h).1
      ∧ (growEnd avail l e h).2 ≤ avail := by
  intro l
  induction l with
  | nil =>
      intro e h _ helen hh
      exact ⟨Nat.le_refl e, helen, by simp [growEnd, wsum_self], by simpa [growEnd] using hh⟩
  | cons x rest ih =>
      intro e h hl helen hh
      have helt : e < heights.length := by
        have := congrArg List.length hl
        simp [List.length_drop] at this
        omega
      have hrest : rest = heights.drop (e + 1) := by
        have : heights.drop (e + 1) = (heights.drop e).drop 1 := by
          rw [List.drop_drop]
        rw [this, ← hl]
        rfl
      have hx : x = heights.getD e 0 := by
        have h0 : (heights.drop e)[0]? = some x := by rw [← hl]; simp
        rw [List.getElem?_drop] at h0
        simp only [Nat.add_zero] at h0
        simp [List.getD, h0]
      rw [growEnd]
      split
      · exact ⟨Nat.le_refl e, le_of_lt helt, by simp [wsum_self], hh⟩
      · rename_i hfit
        have hhx : h + x ≤ avail := by omega
        obtain ⟨ih1, ih2, ih3, ih4⟩ := ih (e + 1) (h + x) hrest (by omega) hhx
        refine ⟨by omega, ih2, ?_, ih4⟩
        rw [ih3, wsum_succ_left heights (lt_of_lt_of_le (Nat.lt_succ_self e) ih1), ← hx]
        omega

theorem shrinkFront_spec (heights : List Nat) (avail e : Nat) :
    ∀ (fuel s h : Nat), fuel = e - s → s ≤ e → h = wsum heights s e →
      s ≤ (shrinkFront heights avail fuel s h).1
      ∧ (shrinkFront heights avail fuel s h).1 ≤ e
      ∧ (shrinkFront heights avail fuel s h).2
          = wsum heights (shrinkFront heights avail fuel s h).1 e
      ∧ (shrinkFront heights avail fuel s h).2 ≤ avail := by
  intro fuel
  induction fuel with
  | zero =>
      intro s h hfuel hse hws
      have hs : s = e := by omega
      subst hs
      rw [wsum_self] at hws
      exact ⟨Nat.le_refl s, hse, by simpa [shrinkFront, wsum_self], by simp [shrinkFront, hws]⟩
  | succ fuel ih =>
      intro s h hfuel hse hws
      rw [shrinkFront]
      split
      · have hslt : s < e := by omega
        have hdrop : h - heights.getD s 0 = wsum heights (s + 1) e := by
          rw [hws, wsum_succ_left heights hslt]
          omega
        obtain ⟨ih1, ih2, ih3, ih4⟩ := ih (s + 1) (h - heights.getD s 0) (by omega) hslt hdrop
        exact ⟨by omega, ih2, ih3, ih4⟩
      · rename_i hle
        exact ⟨Nat.le_refl s, hse, hws, by omega⟩

theorem shrinkFront_le (heights : List Nat) (avail d : Nat)
    (hd : heights.getD d 0 ≤ avail) :
    ∀ (fuel s h : Nat), fuel = (d + 1) - s → s ≤ d → h = wsum heights s (d + 1) →
      (shrinkFront heights avail fuel s h).1 ≤ d := by
  intro fuel
  induction fuel with
  | zero =>
      intro s h _ hsd _
      simpa [shrinkFront] using hsd
  | succ fuel ih =>
      intro s h hfuel hsd hws
      rw [shrinkFront]
      split
      · rename_i hgt
        have hslt : s < d := by
          rcases Nat.lt_or_ge s d with h1 | h1
          · exact h1
          · exfalso
            have hsd' : s = d := by omega
            subst hsd'
            rw [wsum_succ_left heights (Nat.lt_succ_self s), wsum_self] at hws
            omega
        have hdrop : h - heights.getD s 0 = wsum heights (s + 1) (d + 1) := by
          rw [hws, wsum_succ_left heights (by omega : s < d + 1)]
          omega
        exact ih (s + 1) (h - heights.getD s 0) (by omega) hslt hdrop
      · simpa using hsd

theorem extendToSel_spec (heights : List Nat) (avail sel : Nat) (hsel : sel < heights.length) :
    ∀ (fuel s e h : Nat), fuel = sel + 1 - e → s ≤ e → e ≤ heights.length →
      h = wsum heights s e → h ≤ avail →
      (extendToSel heights avail sel fuel s e h).1 ≤ (extendToSel heights avail sel fuel s e h).2
      ∧ sel < (extendToSel heights avail sel fuel s e h).2
      ∧ wsum heights (extendToSel heights avail sel fuel s e h).1
          (extendToSel heights avail sel fuel s e h).2 ≤ avail
      ∧ (heights.getD sel 0 ≤ avail → s ≤ sel →
          (extendToSel heights avail sel fuel s e h).1 ≤ sel) := by
  intro fuel
  induction fuel with
  | zero =>
      intro s e h hfuel hse _ hws hha
      have hesel : sel < e := by omega
      simp only [extendToSel]
      exact ⟨hse, hesel, by rw [← hws]; exact hha, fun _ hssel => hssel⟩
  | succ fuel ih =>
      intro s e h hfuel hse helen hws hha
      simp only [extendToSel]
      split
      · rename_i hesel
        have helt : e < heights.length := lt_of_le_of_lt hesel hsel
        have h1 : h + heights.getD e 0 = wsum heights s (e + 1) := by
          rw [wsum_succ_right heights hse, hws]
        obtain ⟨sh1, sh2, sh3, sh4⟩ :=
          shrinkFront_spec heights avail (e + 1) (e + 1 - s) s (h + heights.getD e 0)
            rfl (by omega) h1
        obtain ⟨ih1, ih2, ih3, ih4⟩ := ih
          (shrinkFront heights avail (e + 1 - s) s (h + heights.getD e 0)).1 (e + 1)
          (shrinkFront heights avail (e + 1 - s) s (h + heights.getD e 0)).2
          (by omega) sh2 (by omega) sh3 sh4
        refine ⟨ih1, ih2, ih3, fun hdsel hssel => ?_⟩
        refine ih4 hdsel ?_
        rcases Nat.lt_or_ge e sel with helt2 | hege
        · omega
        · have hesel' : e = sel := by omega
          subst hesel'
          exact shrinkFront_le heights avail e hdsel (e + 1 - s) s
            (h + heights.getD e 0) rfl (by omega) h1
      · rename_i hesel
        have hesel' : sel < e := by omega
        exact ⟨hse, hesel', by rw [← hws]; exact hha, fun _ hssel => hssel⟩

/-- C6 counterexample: with visible heights `[10]`, previous offset 0,
selected index 0 and available height 5 (the single entry taller than the
viewport), the adjusted window is `[1, 1)` — it does **not** contain the
selected index, refuting `start ≤ selected_index < end`. -/
theorem c6_window_containment_counterexample :
    ¬ ((windowAdjust [10] 0 0 5).1 ≤ 0 ∧ 0 < (windowAdjust [10] 0 0 5).2) := by
  decide

/-- C6 (amended): after the scroll-window adjustment, the summed height of the
entries in `[start, end)` never exceeds the available height (with no
exception needed), and `start ≤ selected_index < end` holds whenever the
selected entry's own height fits in the available height (the counterexample
shows it can fail otherwise). -/
theorem c6_window_invariant_amended (heights : List Nat) (offset sel avail : Nat)
    (hsel : sel < heights.length) :
    wsum heights (windowAdjust heights offset sel avail).1
      (windowAdjust heights offset sel avail).2 ≤ avail
    ∧ (heights.getD sel 0 ≤ avail →
        (windowAdjust heights offset sel avail).1 ≤ sel
        ∧ sel < (windowAdjust heights offset sel avail).2) := by
  unfold windowAdjust
  have hstart : min offset sel ≤ sel := Nat.min_le_right _ _
  have hstartlen : min offset sel ≤ heights.length := le_trans hstart (le_of_lt hsel)
  obtain ⟨g1, g2, g3, g4⟩ :=
    growEnd_spec heights avail (heights.drop (min offset sel)) (min offset sel) 0
      rfl hstartlen (Nat.zero_le _)
  obtain ⟨e1, e2, e3, e4⟩ :=
    extendToSel_spec heights avail sel hsel
      (sel + 1 - (growEnd avail (heights.drop (min offset sel)) (min offset sel) 0).1)
      (min offset sel)
      (growEnd avail (heights.drop (min offset sel)) (min offset sel) 0).1
      (growEnd avail (heights.drop (min offset sel)) (min offset sel) 0).2
      rfl g1 g2 (by omega) g4
  exact ⟨e3, fun hd => ⟨e4 hd hstart, e2⟩⟩

/-- Witness for the amended C6 at heights `[2, 3]`, offset 0, selected index
1, available height 5: the window is `[0, 2)` with summed height 5. -/
theorem c6_window_invariant_amended_witness :
    1 < ([2, 3] : List Nat).length
    ∧ wsum [2, 3] (windowAdjust [2, 3] 0 1 5).1 (windowAdjust [2, 3] 0 1 5).2 ≤ 5
    ∧ (([2, 3] : List Nat).getD 1 0 ≤ 5 →
        (windowAdjust [2, 3] 0 1 5).1 ≤ 1 ∧ 1 < (windowAdjust [2, 3] 0 1 5).2) :=
  ⟨by decide, (c6_window_invariant_amended [2, 3] 0 1 5 (by decide)).1,
    (c6_window_invariant_amended [2, 3] 0 1 5 (by decide)).2⟩

/-! ## Truncate composer (C7) -/

/-- The truncator never grows the line beyond `max_width`. -/
theorem truncGo_width (maxW : Nat) (align : TextAlignment) :
    ∀ (syms : List Grapheme) (curW hOff : Nat), curW ≤ maxW →
      curW + lineWidth (truncGo maxW align syms curW hOff) ≤ maxW := by
  intro syms
  induction syms with
  | nil => intro curW hOff h; simpa [truncGo, lineWidth] using h
  | cons g rest ih =>
      intro curW hOff h
      rw [truncGo]
      split
      · exact ih curW hOff h
      · split
        · simpa [lineWidth] using h
        · rename_i hwide hfit
          have hle : curW + g.width ≤ maxW := by omega
          split
          · have := ih (curW + g.width) hOff hle
            simp only [lineWidth, List.map_cons, List.sum_cons] at *
            omega
          · split
            · rename_i hcut
              have hw : (trimOffsetG g hOff).width ≤ g.width := by
                unfold trimOffsetG
                split
                · simp [emptyGrapheme]
                · exact Nat.le_refl _
              have := ih (curW + (trimOffsetG g hOff).width) 0 (by omega)
              simp only [lineWidth, List.map_cons, List.sum_cons] at *
              omega
            · have := ih (curW + emptyGrapheme.width) (hOff - g.width) (by simp [emptyGrapheme]; omega)
              simp only [lineWidth, List.map_cons, List.sum_cons, emptyGrapheme] at *
              omega

/-- Every grapheme the truncator emits has width at most `max_width` (a
fragment wider than the bound is skipped; offset-consumed fragments only
shrink). -/
theorem truncGo_mem_width (maxW : Nat) (align : TextAlignment) :
    ∀ (syms : List Grapheme) (curW hOff : Nat) (g : Grapheme),
      g ∈ truncGo maxW align syms curW hOff → g.width ≤ maxW := by
  intro syms
  induction syms with
  | nil => intro curW hOff g h; simp [truncGo] at h
  | cons x rest ih =>
      intro curW hOff g h
      rw [truncGo] at h
      split at h
      · exact ih _ _ _ h
      · split at h
        · simp at h
        · rename_i hwide hfit
          split at h
          · rcases List.mem_cons.mp h with rfl | h
            · omega
            · exact ih _ _ _ h
          · split at h
            · rcases List.mem_cons.mp h with rfl | h
              · unfold trimOffsetG
                split
                · simp [emptyGrapheme]
                · dsimp only
                  omega
              · exact ih _ _ _ h
            · rcases List.mem_cons.mp h with rfl | h
              · simp [emptyGrapheme]
              · exact ih _ _ _ h

/-- For a non-left alignment the horizontal offset is ignored. -/
theorem truncGo_offset_ignored (maxW : Nat) (align : TextAlignment)
    (halign : align ≠ TextAlignment.left) :
    ∀ (syms : List Grapheme) (curW h1 h2 : Nat),
      truncGo maxW align syms curW h1 = truncGo maxW align syms curW h2 := by
  intro syms
  induction syms with
  | nil => intro curW h1 h2; rfl
  | cons g rest ih =>
      intro curW h1 h2
      rw [truncGo, truncGo]
      split
      · exact ih curW h1 h2
      · split
        · rfl
        · rw [if_pos (Or.inr halign), if_pos (Or.inr halign)]
          simp only
          rw [ih (curW + g.width) h1 h2]

/-- With a left alignment and no offset, the truncator is exactly the greedy
clip described by the claim. -/
theorem truncGo_eq_greedySpec (maxW : Nat) :
    ∀ (syms : List Grapheme) (curW : Nat),
      truncGo maxW TextAlignment.left syms curW 0 = truncGreedySpec maxW curW syms := by
  intro syms
  induction syms with
  | nil => intro curW; rfl
  | cons g rest ih =>
      intro curW
      rw [truncGo, truncGreedySpec]
      split
      · exact ih curW
      · split
        · rfl
        · rw [if_pos (Or.inl rfl)]
          simp only
          rw [ih (curW + g.width)]

/-- C7: with `max_width > 0` the truncate composer emits exactly one line per
logical line and ends exactly when the source is exhausted; no emitted line
(and no emitted grapheme) is wider than `max_width`; non-left alignments
ignore the horizontal offset; and for left-aligned lines without offset the
result is exactly the greedy "stop at first overflow, skip over-wide
fragments" clip of the claim. -/
theorem c7_truncate_properties (maxW hOff : Nat) (hpos : 0 < maxW) :
    (∀ lines, (truncAll maxW hOff lines).length = lines.length)
    ∧ (∀ lines out, out ∈ truncAll maxW hOff lines → out.2.1 ≤ maxW ∧ lineWidth out.1 ≤ maxW)
    ∧ (∀ align syms g, g ∈ truncLine maxW hOff align syms → g.width ≤ maxW)
    ∧ (∀ align syms, align ≠ TextAlignment.left →
        truncLine maxW hOff align syms = truncLine maxW 0 align syms)
    ∧ (∀ syms, truncLine maxW 0 TextAlignment.left syms = truncGreedySpec maxW 0 syms)
    ∧ (∀ t : LineTruncatorState, t.maxLineWidth = maxW →
        ((truncNextLine t).1 = none ↔ t.inputLines = [])) := by
  have hmz : maxW ≠ 0 := by omega
  refine ⟨?_, ?_, ?_, ?_, ?_, ?_⟩
  · intro lines
    simp [truncAll, hmz]
  · intro lines out hmem
    simp only [truncAll, if_neg hmz, List.mem_map] at hmem
    obtain ⟨la, _, rfl⟩ := hmem
    have := truncGo_width maxW la.2 la.1 0 hOff (Nat.zero_le _)
    simp only [Nat.zero_add] at this
    exact ⟨this, this⟩
  · intro align syms g h
    exact truncGo_mem_width maxW align syms 0 hOff g h
  · intro align syms halign
    exact truncGo_offset_ignored maxW align halign syms 0 hOff 0
  · intro syms
    exact truncGo_eq_greedySpec maxW syms 0
  · intro t ht
    cases hl : t.inputLines with
    | nil => simp [truncNextLine, ht, hmz, hl]
    | cons la more => simp [truncNextLine, ht, hmz, hl]

/-- Witness for C7 at `max_width = 5`, offset 0, on a single short line. -/
theorem c7_truncate_properties_witness :
    0 < 5
    ∧ (truncAll 5 0 [([⟨"a", 1, false⟩, ⟨"b", 1, false⟩], TextAlignment.left)]).length = 1 :=
  ⟨by decide,
    (c7_truncate_properties 5 0 (by decide)).1
      [([⟨"a", 1, false⟩, ⟨"b", 1, false⟩], TextAlignment.left)]⟩

/-! ## Flattening is the open-set-gated pre-order listing (C1) -/

/-- Descending into an item's children. -/
theorem internalItem_eq (opened : List (List Nat)) (pid : List Nat) (item : TreeItem) :
    internalItem opened pid item = internal opened pid 0 item.children := by
  cases item
  rfl

/-- Membership in `internal`, unfolded one sibling level at a time: an entry
comes from the sibling at offset `j` (emitted at identifier
`pre ++ [i + j]`), either as that node itself or from inside its children when
its identifier is open. -/
theorem mem_internal_iff (opened : List (List Nat)) :
    ∀ (items : List TreeItem) (pre : List Nat) (i : Nat) (fl : Flattened),
      fl ∈ internal opened pre i items ↔
        ∃ j item, items[j]? = some item ∧
          (fl = ⟨pre ++ [i + j], item⟩
            ∨ (pre ++ [i + j] ∈ opened
                ∧ fl ∈ internal opened (pre ++ [i + j]) 0 item.children)) := by
  intro items
  induction items with
  | nil =>
      intro pre i fl
      simp [internal]
  | cons item rest ih =>
      intro pre i fl
      constructor
      · intro h
        rw [internal] at h
        rcases List.mem_append.mp h with h | h
        · rcases List.mem_cons.mp h with h | h
          · exact ⟨0, item, by simp, Or.inl (by simpa using h)⟩
          · split at h
            · rw [internalItem_eq] at h
              refine ⟨0, item, by simp, Or.inr ⟨by simpa using ‹pre ++ [i] ∈ opened›, ?_⟩⟩
              simpa using h
            · simp at h
        · obtain ⟨j, item', hj, hcase⟩ := (ih pre (i + 1) fl).mp h
          refine ⟨j + 1, item', by simpa using hj, ?_⟩
          have harith : i + (j + 1) = i + 1 + j := by omega
          rw [harith]
          exact hcase
      · rintro ⟨j, item', hj, hcase⟩
        rw [internal]
        cases j with
        | zero =>
            have hitem : item' = item := by
              exact (by simpa using hj : item = item').symm
            subst hitem
            rcases hcase with hcase | hcase
            · exact List.mem_append.mpr (Or.inl (List.mem_cons.mpr (Or.inl (by simpa using hcase))))
            · refine List.mem_append.mpr (Or.inl (List.mem_cons.mpr (Or.inr ?_)))
              rw [if_pos (by simpa using hcase.1), internalItem_eq]
              simpa using hcase.2
        | succ j =>
            refine List.mem_append.mpr (Or.inr ?_)
            refine (ih pre (i + 1) fl).mpr ⟨j, item', by simpa using hj, ?_⟩
            have harith : i + 1 + j = i + (j + 1) := by omega
            rw [harith]
            exact hcase

/-- A child-list is strictly smaller than its item. -/
theorem TreeItem.sizeOf_children_lt (item : TreeItem) : sizeOf item.children < sizeOf item := by
  cases item with
  | mk t c => simp [TreeItem.children]

/-- Every entry of `internal` run on a reachable child-list (the roots, or the
children of a visible open node) is a visible entry in the sense of the
claim. -/
theorem visibleAt_of_mem_internal (opened : List (List Nat)) (items : List TreeItem) :
    ∀ (n : Nat) (children : List TreeItem), sizeOf children ≤ n →
      ∀ (pid : List Nat) (fl : Flattened),
        ((pid = [] ∧ children = items)
          ∨ ∃ parent, VisibleAt opened items pid parent ∧ pid ∈ opened
              ∧ children = parent.children) →
        fl ∈ internal opened pid 0 children →
        VisibleAt opened items fl.identifier fl.item := by
  intro n
  induction n with
  | zero =>
      intro children hsize
      exact absurd hsize (by cases children <;> simp)
  | succ n ih =>
      intro children hsize pid fl hreach hfl
      obtain ⟨j, item, hj, hcase⟩ := (mem_internal_iff opened children pid 0 fl).mp hfl
      simp only [Nat.zero_add] at hcase
      have hvis : VisibleAt opened items (pid ++ [j]) item := by
        rcases hreach with ⟨rfl, rfl⟩ | ⟨parent, hparent, hopen, rfl⟩
        · simpa using VisibleAt.root j item hj
        · exact VisibleAt.child pid parent j item hparent hopen hj
      rcases hcase with rfl | ⟨hopen', hfl'⟩
      · exact hvis
      · have hmem : item ∈ children := List.getElem?_mem hj
        have hlt : sizeOf item.children < sizeOf children :=
          lt_trans item.sizeOf_children_lt (List.sizeOf_lt_of_mem hmem)
        exact ih item.children (by omega) (pid ++ [j]) fl
          (Or.inr ⟨item, hvis, hopen', rfl⟩) hfl'

/-- Entries found under the children of a visible open node are entries of the
whole flattening. -/
theorem mem_internal_lift (opened : List (List Nat)) (items : List TreeItem) :
    ∀ {pid : List Nat} {parent : TreeItem}, VisibleAt opened items pid parent →
      pid ∈ opened → ∀ fl, fl ∈ internal opened pid 0 parent.children →
      fl ∈ internal opened [] 0 items := by
  intro pid parent h
  induction h with
  | root index item hidx =>
      intro hopen fl hfl
      refine (mem_internal_iff opened items [] 0 fl).mpr ⟨index, item, hidx, Or.inr ?_⟩
      constructor
      · simpa using hopen
      · simpa using hfl
  | child pid parent index item hp hopen hidx ih =>
      intro hopen' fl hfl
      apply ih hopen
      refine (mem_internal_iff opened parent.children pid 0 fl).mpr
        ⟨index, item, hidx, Or.inr ?_⟩
      constructor
      · simpa using hopen'
      · simpa using hfl

/-- Every visible entry in the sense of the claim occurs in the flattening. -/
theorem mem_flatten_of_visibleAt (opened : List (List Nat)) (items : List TreeItem) :
    ∀ (pid : List Nat) (item : TreeItem), VisibleAt opened items pid item →
      (⟨pid, item⟩ : Flattened) ∈ flatten opened items := by
  intro pid item h
  cases h with
  | root index item hidx =>
      exact (mem_internal_iff opened items [] 0 _).mpr ⟨index, item, hidx, Or.inl (by simp)⟩
  | child pid parent index item hp hopen hidx =>
      exact mem_internal_lift opened items hp hopen _
        ((mem_internal_iff opened parent.children pid 0 _).mpr
          ⟨index, item, hidx, Or.inl (by simp)⟩)

/-- C1: `flatten` produces exactly the pre-order, depth-first listing of
visible nodes.  (1) Its entries are exactly the claim's visible nodes: roots
are always present, and a node's subtree entries are present iff its
identifier is in the open set.  (2) Each sibling is emitted before its
(conditionally visited) children, followed by the later siblings, in
child-list order.  (3) On the example roots `[a, b(c, d(e, f), g), h]` the
emitted label sequences are exactly those of the claim for the open sets
`{}`, `{[1]}` and `{[1], [1,1]}`. -/
theorem c1_flatten_preorder (opened : List (List Nat)) (items : List TreeItem) :
    (∀ fl : Flattened, fl ∈ flatten opened items ↔
        VisibleAt opened items fl.identifier fl.item)
    ∧ (∀ (current : List Nat) (index : Nat) (item : TreeItem) (rest : List TreeItem),
        internal opened current index (item :: rest) =
          ({ identifier := current ++ [index], item := item } ::
            (if current ++ [index] ∈ opened then
              internal opened (current ++ [index]) 0 item.children
            else []))
          ++ internal opened current (index + 1) rest)
    ∧ (flatten [] exampleItems).map (fun f => f.item.text) = [["a"], ["b"], ["h"]]
    ∧ (flatten [[1]] exampleItems).map (fun f => f.item.text)
        = [["a"], ["b"], ["c"], ["d"], ["g"], ["h"]]
    ∧ (flatten [[1], [1, 1]] exampleItems).map (fun f => f.item.text)
        = [["a"], ["b"], ["c"], ["d"], ["e"], ["f"], ["g"], ["h"]] := by
  refine ⟨?_, ?_, by decide, by decide, by decide⟩
  · intro fl
    constructor
    · intro h
      exact visibleAt_of_mem_internal opened items (sizeOf items) items (Nat.le_refl _)
        [] fl (Or.inl ⟨rfl, rfl⟩) h
    · intro h
      have := mem_flatten_of_visibleAt opened items fl.identifier fl.item h
      cases fl
      exact this
  · intro current index item rest
    rw [internal, internalItem_eq]

/-! ## Word-wrap composer: list helpers (C9, C5) -/

theorem lineWidth_append (xs ys : List Grapheme) :
    lineWidth (xs ++ ys) = lineWidth xs + lineWidth ys := by
  simp [lineWidth]

theorem lineWidth_dropWhile_le (p : Grapheme → Bool) (xs : List Grapheme) :
    lineWidth (xs.dropWhile p) ≤ lineWidth xs := by
  conv_rhs => rw [← List.takeWhile_append_dropWhile p xs]
  rw [lineWidth_append]
  omega

theorem dropWhile_append_single_neg {α : Type} (p : α → Bool) (xs : List α) (a : α)
    (h : p a = false) : (xs ++ [a]).dropWhile p = xs.dropWhile p ++ [a] := by
  rw [List.dropWhile_append]
  split
  · rename_i he
    rw [List.isEmpty_iff] at he
    rw [he]
    simp [List.dropWhile_cons, h]
  · rfl

theorem dropWhile_append_single_pos {α : Type} (p : α → Bool) (xs : List α) (a : α)
    (hne : xs.dropWhile p ≠ []) : (xs ++ [a]).dropWhile p = xs.dropWhile p ++ [a] := by
  rw [List.dropWhile_append, if_neg]
  simpa [List.isEmpty_iff] using hne

theorem takeWhile_append_single_neg {α : Type} (p : α → Bool) (xs : List α) (a : α)
    (h : p a = false) : (xs ++ [a]).takeWhile p = xs.takeWhile p := by
  rw [List.takeWhile_append]
  split
  · rename_i he
    have hd : xs.dropWhile p = [] := by
      have hlen := congrArg List.length (List.takeWhile_append_dropWhile p xs)
      rw [List.length_append] at hlen
      exact List.eq_nil_of_length_eq_zero (by omega)
    have hx : xs.takeWhile p = xs := by
      conv_rhs => rw [← List.takeWhile_append_dropWhile p xs]
      rw [hd, List.append_nil]
    rw [show List.takeWhile p [a] = [] from by simp [List.takeWhile_cons, h],
      List.append_nil, hx]
  · rfl

theorem takeWhile_all_eq {α : Type} (p : α → Bool) (xs : List α)
    (hxs : ∀ x ∈ xs, p x = true) : xs.takeWhile p = xs :=
  List.takeWhile_eq_self_iff.mpr hxs

theorem dropWhile_all_nil {α : Type} (p : α → Bool) (xs : List α)
    (hxs : ∀ x ∈ xs, p x = true) : xs.dropWhile p = [] :=
  List.dropWhile_eq_nil_iff.mpr hxs

theorem takeWhile_append_single_all {α : Type} (p : α → Bool) (xs : List α) (a : α)
    (hxs : ∀ x ∈ xs, p x = true) (h : p a = true) :
    (xs ++ [a]).takeWhile p = xs ++ [a] := by
  apply takeWhile_all_eq
  intro x hx
  rcases List.mem_append.mp hx with hx | hx
  · exact hxs x hx
  · rw [List.mem_singleton.mp hx]
    exact h

theorem lastSeen_append (p : List Grapheme) (g : Grapheme) :
    lastSeen (p ++ [g]) = !g.ws := by
  induction p with
  | nil => rfl
  | cons x rest ih =>
      cases rest with
      | nil => rfl
      | cons y t => simpa [lastSeen] using ih

theorem exists_nonws_of_lastSeen (p : List Grapheme) (h : lastSeen p = true) :
    ∃ g ∈ p, g.ws = false := by
  induction p with
  | nil => simp [lastSeen] at h
  | cons x rest ih =>
      cases rest with
      | nil => exact ⟨x, by simp, by simpa [lastSeen] using h⟩
      | cons y t =>
          obtain ⟨g, hg, hgw⟩ := ih (by simpa [lastSeen] using h)
          exact ⟨g, List.mem_cons_of_mem x hg, hgw⟩

/-- Under the invariant, the three buffers together never hold more width than
the processed prefix. -/
theorem wrapInv_sum (trim : Bool) (p : List Grapheme) (st : WrapSt)
    (inv : WrapInv trim p st) :
    lineWidth st.cur + lineWidth st.wsBuf + lineWidth st.word ≤ lineWidth p := by
  cases trim with
  | false =>
      have h := inv.content_notrim rfl
      rw [← h, lineWidth_append, lineWidth_append]
  | true =>
      rcases inv.content_trim rfl with ⟨hc, hws, hword⟩ | ⟨_, hcat⟩
      · rw [hc, hws, hword]
        have h2 := congrArg lineWidth (List.takeWhile_append_dropWhile Grapheme.ws p)
        rw [lineWidth_append] at h2
        have h0 : lineWidth ([] : List Grapheme) = 0 := rfl
        omega
      · have := lineWidth_dropWhile_le Grapheme.ws p
        rw [← hcat, lineWidth_append, lineWidth_append] at this
        omega

/-- With all widths positive and the whole line fitting the bound, neither the
arithmetic flush conditions nor the seal condition can fire: one loop
iteration reduces to "flush exactly at a word boundary, then buffer the
symbol". -/
theorem wrapStep_no_seal (maxW : Nat) (trim : Bool) (p : List Grapheme) (st : WrapSt)
    (g : Grapheme) (inv : WrapInv trim p st) (hw : lineWidth p + g.width ≤ maxW)
    (hg : 1 ≤ g.width) :
    wrapStep maxW trim st g =
      appendSym (if st.seenNonWs && g.ws then doFlush trim st else st) g := by
  have hsum := wrapInv_sum trim p st inv
  have hgle : ¬ (maxW < g.width) := by omega
  have hword : ¬ (maxW < st.wordW + g.width) := by rw [inv.wordW_eq]; omega
  have hwsw : ¬ (maxW < st.wsW + g.width) := by rw [inv.wsW_eq]; omega
  have hallw : ¬ (maxW < st.wordW + st.wsW + g.width) := by
    rw [inv.wordW_eq, inv.wsW_eq]; omega
  have hflush : flushCond maxW trim st g = (st.seenNonWs && g.ws) := by
    unfold flushCond
    rw [decide_eq_false hword, decide_eq_false hwsw, decide_eq_false hallw]
    simp
  have hseal : ∀ st' : WrapSt, st'.curW + st'.wsW + st'.wordW ≤ lineWidth p →
      sealCond maxW st' g = false := by
    intro st' hle
    unfold sealCond
    have h1 : ¬ (maxW ≤ st'.curW) := by omega
    have h2 : ¬ (maxW ≤ st'.curW + st'.wsW + st'.wordW) := by omega
    rw [decide_eq_false h1, decide_eq_false h2]
    simp
  have hsum' : (if st.seenNonWs && g.ws then doFlush trim st else st).curW
      + (if st.seenNonWs && g.ws then doFlush trim st else st).wsW
      + (if st.seenNonWs && g.ws then doFlush trim st else st).wordW ≤ lineWidth p := by
    split
    · unfold doFlush
      split <;>
        · dsimp only
          simp only [inv.curW_eq, inv.wsW_eq, inv.wordW_eq]
          omega
    · simp only [inv.curW_eq, inv.wsW_eq, inv.wordW_eq]
      omega
  rw [wrapStep, if_neg hgle]
  simp only [hflush, hseal _ hsum']
  simp

theorem lineWidth_single (g : Grapheme) : lineWidth [g] = g.width := by
  simp [lineWidth]

theorem appendSym_ws (st : WrapSt) (g : Grapheme) (h : g.ws = true) :
    appendSym st g =
      { st with wsW := st.wsW + g.width, wsBuf := st.wsBuf ++ [g], seenNonWs := false } := by
  rw [appendSym, if_pos h]

theorem appendSym_nonws (st : WrapSt) (g : Grapheme) (h : g.ws = false) :
    appendSym st g =
      { st with wordW := st.wordW + g.width, word := st.word ++ [g], seenNonWs := true } := by
  rw [appendSym, if_neg (by simp [h])]

theorem doFlush_of_cond (trim : Bool) (st : WrapSt) (h : (!st.cur.isEmpty || !trim) = true) :
    doFlush trim st =
      { st with cur := st.cur ++ st.wsBuf ++ st.word, curW := st.curW + st.wsW + st.wordW,
                word := [], wordW := 0, wsBuf := [], wsW := 0 } := by
  rw [doFlush, if_pos h]

theorem doFlush_of_not_cond (trim : Bool) (st : WrapSt)
    (h : ¬ ((!st.cur.isEmpty || !trim) = true)) :
    doFlush trim st =
      { st with cur := st.cur ++ st.word, curW := st.curW + st.wordW,
                word := [], wordW := 0, wsBuf := [], wsW := 0 } := by
  rw [doFlush, if_neg h]

/-- One loop iteration preserves the invariant (with all widths positive and
the whole line within the bound). -/
theorem wrapInv_step (maxW : Nat) (trim : Bool) (p : List Grapheme) (st : WrapSt)
    (g : Grapheme) (inv : WrapInv trim p st) (hw : lineWidth p + g.width ≤ maxW)
    (hg : 1 ≤ g.width) : WrapInv trim (p ++ [g]) (wrapStep maxW trim st g) := by
  rw [wrapStep_no_seal maxW trim p st g inv hw hg]
  cases hgw : g.ws with
  | false =>
      rw [if_neg (by simp [hgw]), appendSym_nonws st g hgw]
      refine ⟨inv.wrapped_nil, inv.curW_eq, inv.wsW_eq, ?_, ?_, inv.wsBuf_ws, ?_, ?_, ?_, ?_,
        ?_, ?_⟩
      · show st.wordW + g.width = lineWidth (st.word ++ [g])
        rw [lineWidth_append, lineWidth_single, inv.wordW_eq]
      · show true = lastSeen (p ++ [g])
        rw [lastSeen_append, hgw]
        rfl
      · show ∀ x ∈ st.word ++ [g], x.ws = false
        intro x hx
        rcases List.mem_append.mp hx with hx | hx
        · exact inv.word_nonws x hx
        · rw [List.mem_singleton.mp hx]
          exact hgw
      · intro h
        exact absurd h (by simp)
      · intro _
        simp
      · intro hc
        obtain ⟨x, hx, hxw⟩ := inv.cur_has_nonws hc
        exact ⟨x, List.mem_append_left _ hx, hxw⟩
      · intro ht
        rcases inv.content_trim ht with ⟨hc, hws, hwd⟩ | ⟨hc, hcat⟩
        · left
          refine ⟨hc, ?_, ?_⟩
          · show st.wsBuf = (p ++ [g]).takeWhile Grapheme.ws
            rw [takeWhile_append_single_neg Grapheme.ws p g hgw]
            exact hws
          · show st.word ++ [g] = (p ++ [g]).dropWhile Grapheme.ws
            rw [dropWhile_append_single_neg Grapheme.ws p g hgw, hwd]
        · right
          refine ⟨hc, ?_⟩
          show st.cur ++ st.wsBuf ++ (st.word ++ [g]) = (p ++ [g]).dropWhile Grapheme.ws
          rw [← List.append_assoc, hcat, dropWhile_append_single_neg Grapheme.ws p g hgw]
      · intro ht
        have hcat := inv.content_notrim ht
        show st.cur ++ st.wsBuf ++ (st.word ++ [g]) = p ++ [g]
        rw [← List.append_assoc, hcat]
  | true =>
      cases hseen : st.seenNonWs with
      | false =>
          rw [if_neg (by simp [hseen]), appendSym_ws st g hgw]
          have hword0 : st.word = [] := inv.word_empty_of_not_seen hseen
          refine ⟨inv.wrapped_nil, inv.curW_eq, ?_, inv.wordW_eq, ?_, ?_, inv.word_nonws, ?_,
            ?_, ?_, ?_, ?_⟩
          · show st.wsW + g.width = lineWidth (st.wsBuf ++ [g])
            rw [lineWidth_append, lineWidth_single, inv.wsW_eq]
          · show (false : Bool) = lastSeen (p ++ [g])
            rw [lastSeen_append, hgw]
            rfl
          · show ∀ x ∈ st.wsBuf ++ [g], x.ws = true
            intro x hx
            rcases List.mem_append.mp hx with hx | hx
            · exact inv.wsBuf_ws x hx
            · rw [List.mem_singleton.mp hx]
              exact hgw
          · exact fun _ => hword0
          · intro h
            exact absurd h (by simp)
          · intro hc
            obtain ⟨x, hx, hxw⟩ := inv.cur_has_nonws hc
            exact ⟨x, List.mem_append_left _ hx, hxw⟩
          · intro ht
            rcases inv.content_trim ht with ⟨hc, hws, hwd⟩ | ⟨hc, hcat⟩
            · left
              have hallws : ∀ x ∈ p, Grapheme.ws x = true := by
                apply List.dropWhile_eq_nil_iff.mp
                rw [← hwd, hword0]
              refine ⟨hc, ?_, ?_⟩
              · show st.wsBuf ++ [g] = (p ++ [g]).takeWhile Grapheme.ws
                rw [takeWhile_append_single_all Grapheme.ws p g hallws hgw, hws,
                  takeWhile_all_eq Grapheme.ws p hallws]
              · show st.word = (p ++ [g]).dropWhile Grapheme.ws
                rw [hword0]
                refine (dropWhile_all_nil Grapheme.ws (p ++ [g]) ?_).symm
                intro x hx
                rcases List.mem_append.mp hx with hx | hx
                · exact hallws x hx
                · rw [List.mem_singleton.mp hx]
                  exact hgw
            · right
              refine ⟨hc, ?_⟩
              show st.cur ++ (st.wsBuf ++ [g]) ++ st.word = (p ++ [g]).dropWhile Grapheme.ws
              rw [hword0, List.append_nil] at hcat ⊢
              have hne : p.dropWhile Grapheme.ws ≠ [] := by
                rw [← hcat]
                intro hnil
                exact hc (List.append_eq_nil.mp hnil).1
              rw [← List.append_assoc, hcat,
                dropWhile_append_single_pos Grapheme.ws p g hne]
          · intro ht
            have hcat := inv.content_notrim ht
            show st.cur ++ (st.wsBuf ++ [g]) ++ st.word = p ++ [g]
            rw [hword0, List.append_nil] at hcat ⊢
            rw [← List.append_assoc, hcat]
      | true =>
          rw [if_pos (by simp [hseen, hgw])]
          have hlast : lastSeen p = true := by
            rw [← inv.seen_eq]
            exact hseen
          have hnonws := exists_nonws_of_lastSeen p hlast
          have hwordne : st.word ≠ [] := inv.word_ne_of_seen hseen
          by_cases hcond : (!st.cur.isEmpty || !trim) = true
          · rw [doFlush_of_cond trim st hcond, appendSym_ws _ g hgw]
            refine ⟨inv.wrapped_nil, ?_, ?_, rfl, ?_, ?_, ?_, fun _ => rfl, ?_, ?_, ?_, ?_⟩
            · show st.curW + st.wsW + st.wordW = lineWidth (st.cur ++ st.wsBuf ++ st.word)
              rw [lineWidth_append, lineWidth_append, inv.curW_eq, inv.wsW_eq, inv.wordW_eq]
            · show 0 + g.width = lineWidth (([] : List Grapheme) ++ [g])
              simp [lineWidth]
            · show (false : Bool) = lastSeen (p ++ [g])
              rw [lastSeen_append, hgw]
              rfl
            · show ∀ x ∈ ([] : List Grapheme) ++ [g], x.ws = true
              intro x hx
              have hx2 : x = g := by simpa using hx
              rw [hx2]
              exact hgw
            · show ∀ x ∈ ([] : List Grapheme), x.ws = false
              simp
            · intro h
              exact absurd h (by simp)
            · intro _
              obtain ⟨x, hx, hxw⟩ := hnonws
              exact ⟨x, List.mem_append_left _ hx, hxw⟩
            · intro ht
              right
              have hcur : st.cur ≠ [] := by
                rw [ht] at hcond
                simpa [List.isEmpty_iff] using hcond
              rcases inv.content_trim ht with ⟨hc, _, _⟩ | ⟨_, hcat⟩
              · exact absurd hc hcur
              · constructor
                · show st.cur ++ st.wsBuf ++ st.word ≠ []
                  intro h
                  exact hwordne (List.append_eq_nil.mp h).2
                · show (st.cur ++ st.wsBuf ++ st.word) ++ (([] : List Grapheme) ++ [g])
                      ++ ([] : List Grapheme) = (p ++ [g]).dropWhile Grapheme.ws
                  simp only [List.append_nil, List.nil_append]
                  have hne : p.dropWhile Grapheme.ws ≠ [] := by
                    rw [← hcat]
                    intro h
                    exact hwordne (List.append_eq_nil.mp h).2
                  rw [hcat, dropWhile_append_single_pos Grapheme.ws p g hne]
            · intro ht
              have hcat := inv.content_notrim ht
              show (st.cur ++ st.wsBuf ++ st.word) ++ (([] : List Grapheme) ++ [g])
                  ++ ([] : List Grapheme) = p ++ [g]
              simp only [List.append_nil, List.nil_append]
              rw [hcat]
          · rw [doFlush_of_not_cond trim st hcond, appendSym_ws _ g hgw]
            have hpair : st.cur = [] ∧ trim = true := by
              simp only [Bool.or_eq_true, Bool.not_eq_true', not_or] at hcond
              exact ⟨by simpa [List.isEmpty_iff] using hcond.1, by simpa using hcond.2⟩
            obtain ⟨hcur0, htrim⟩ := hpair
            rcases inv.content_trim htrim with ⟨_, hws, hwd⟩ | ⟨hc, _⟩
            · have hdwne : p.dropWhile Grapheme.ws ≠ [] := by
                rw [← hwd]
                exact hwordne
              refine ⟨inv.wrapped_nil, ?_, ?_, rfl, ?_, ?_, ?_, fun _ => rfl, ?_, ?_, ?_, ?_⟩
              · show st.curW + st.wordW = lineWidth (st.cur ++ st.word)
                rw [lineWidth_append, inv.curW_eq, inv.wordW_eq]
              · show 0 + g.width = lineWidth (([] : List Grapheme) ++ [g])
                simp [lineWidth]
              · show (false : Bool) = lastSeen (p ++ [g])
                rw [lastSeen_append, hgw]
                rfl
              · show ∀ x ∈ ([] : List Grapheme) ++ [g], x.ws = true
                intro x hx
                have hx2 : x = g := by simpa using hx
                rw [hx2]
                exact hgw
              · show ∀ x ∈ ([] : List Grapheme), x.ws = false
                simp
              · intro h
                exact absurd h (by simp)
              · intro _
                obtain ⟨x, hx, hxw⟩ := hnonws
                exact ⟨x, List.mem_append_left _ hx, hxw⟩
              · intro _
                right
                constructor
                · show st.cur ++ st.word ≠ []
                  intro h
                  exact hwordne (List.append_eq_nil.mp h).2
                · show (st.cur ++ st.word) ++ (([] : List Grapheme) ++ [g])
                      ++ ([] : List Grapheme) = (p ++ [g]).dropWhile Grapheme.ws
                  simp only [List.append_nil, List.nil_append]
                  rw [hcur0, List.nil_append, hwd,
                    dropWhile_append_single_pos Grapheme.ws p g hdwne]
              · intro ht
                rw [ht] at htrim
                exact absurd htrim (by simp)
            · exact absurd hcur0 (by simp [hc])

theorem isEmpty_false_of_ne {α : Type} {l : List α} (h : l ≠ []) : l.isEmpty = false := by
  cases l with
  | nil => exact absurd rfl h
  | cons x t => rfl

/-- The invariant holds before any symbol is processed. -/
theorem wrapInv_init (trim : Bool) : WrapInv trim [] initWrapSt := by
  refine ⟨rfl, rfl, rfl, rfl, rfl, ?_, ?_, fun _ => rfl, ?_, ?_, ?_, fun _ => rfl⟩
  · intro g hg
    simp [initWrapSt] at hg
  · intro g hg
    simp [initWrapSt] at hg
  · intro h
    simp [initWrapSt] at h
  · intro h
    simp [initWrapSt] at h
  · intro _
    exact Or.inl ⟨rfl, rfl, rfl⟩

/-- The invariant holds after the whole line is processed. -/
theorem wrapInv_foldl (maxW : Nat) (trim : Bool) :
    ∀ (rest p : List Grapheme) (st : WrapSt), WrapInv trim p st →
      lineWidth p + lineWidth rest ≤ maxW → (∀ g ∈ rest, 1 ≤ g.width) →
      WrapInv trim (p ++ rest) (rest.foldl (wrapStep maxW trim) st) := by
  intro rest
  induction rest with
  | nil =>
      intro p st inv _ _
      simpa using inv
  | cons g rest ih =>
      intro p st inv hw hpos
      have hg : 1 ≤ g.width := hpos g (List.mem_cons_self g rest)
      have hlw : lineWidth (g :: rest) = g.width + lineWidth rest := by
        simp [lineWidth]
      have inv1 := wrapInv_step maxW trim p st g inv (by omega) hg
      have h2 := ih (p ++ [g]) (wrapStep maxW trim st g) inv1
        (by rw [lineWidth_append, lineWidth_single]; omega)
        (fun x hx => hpos x (List.mem_cons_of_mem g hx))
      rw [List.foldl_cons]
      have heq : (p ++ [g]) ++ rest = p ++ (g :: rest) := by simp
      rw [← heq]
      exact h2

/-- End-of-line handling under the invariant: exactly one line comes out —
the processed line minus its leading whitespace when trimming, the processed
line itself when not trimming except that an all-whitespace line collapses to
an empty line. -/
theorem wrapFinish_eq (trim : Bool) (p : List Grapheme) (st : WrapSt)
    (inv : WrapInv trim p st) :
    wrapFinish trim st =
      [if trim then p.dropWhile Grapheme.ws else if p.all Grapheme.ws then [] else p] := by
  have hwrapped := inv.wrapped_nil
  cases trim with
  | false =>
      have hcat := inv.content_notrim rfl
      by_cases hall : p.all Grapheme.ws = true
      · have hmem : ∀ x ∈ p, x.ws = true := by
          simpa [List.all_eq_true] using hall
        have hcur : st.cur = [] := by
          by_contra hc
          obtain ⟨x, hx, hxw⟩ := inv.cur_has_nonws hc
          rw [hmem x hx] at hxw
          exact absurd hxw (by simp)
        have hword : st.word = [] := by
          cases hwd : st.word with
          | nil => rfl
          | cons y t =>
              have hy : y ∈ p := by
                rw [← hcat]
                exact List.mem_append_right _ (by rw [hwd]; simp)
              have h1 := inv.word_nonws y (by rw [hwd]; simp)
              rw [hmem y hy] at h1
              exact absurd h1 (by simp)
        have hwsBuf : st.wsBuf = p := by
          have h2 := hcat
          rw [hcur, hword, List.nil_append, List.append_nil] at h2
          exact h2
        cases hp : p with
        | nil =>
            rw [wrapFinish]
            rw [hp] at hwsBuf
            simp [hword, hcur, hwsBuf, hwrapped, hp]
        | cons y t =>
            rw [wrapFinish]
            rw [hp] at hwsBuf
            simp [hword, hcur, hwsBuf, hwrapped, hp, hall]
            constructor
            · exact hmem y (by rw [hp]; simp)
            · intro x hx
              exact hmem x (by rw [hp]; simp [hx])
      · have hpne : p ≠ [] := by
          intro hp
          apply hall
          rw [hp]
          rfl
        by_cases hwe : st.word = []
        · by_cases hbe : st.wsBuf = []
          · have hcur : st.cur = p := by
              rw [← hcat, hwe, hbe]
              simp
            rw [wrapFinish]
            simp [hwe, hbe, hwrapped, hcur, isEmpty_false_of_ne hpne, hall]
          · have hcur : st.cur ≠ [] := by
              intro hc
              apply hall
              rw [List.all_eq_true]
              intro x hx
              rw [← hcat, hc, hwe, List.nil_append, List.append_nil] at hx
              exact inv.wsBuf_ws x hx
            have hcat2 : st.cur ++ st.wsBuf = p := by
              rw [← hcat, hwe, List.append_nil]
            rw [wrapFinish]
            simp [hwe, isEmpty_false_of_ne hbe, isEmpty_false_of_ne hcur, hwrapped, hcat2,
              isEmpty_false_of_ne hpne, hall]
        · rw [wrapFinish]
          simp [isEmpty_false_of_ne hwe, hwrapped, hall, hcat, isEmpty_false_of_ne hpne]
  | true =>
      rcases inv.content_trim rfl with ⟨hcur, hws, hwd⟩ | ⟨hcur, hcat⟩
      · by_cases hwe : st.word = []
        · have hdw : p.dropWhile Grapheme.ws = [] := by
            rw [← hwd]
            exact hwe
          by_cases hbe : st.wsBuf = []
          · rw [wrapFinish]
            simp [hwe, hbe, hcur, hwrapped, hdw]
          · rw [wrapFinish]
            simp [hwe, isEmpty_false_of_ne hbe, hcur, hwrapped, hdw]
        · rw [wrapFinish]
          simp [isEmpty_false_of_ne hwe, hcur, hwrapped, hwd,
            isEmpty_false_of_ne (hwd ▸ hwe : p.dropWhile Grapheme.ws ≠ [])]
      · have hdwne : p.dropWhile Grapheme.ws ≠ [] := by
          rw [← hcat]
          intro h
          exact hcur (List.append_eq_nil.mp (List.append_eq_nil.mp h).1).1
        by_cases hwe : st.word = []
        · by_cases hbe : st.wsBuf = []
          · have hcur2 : st.cur = p.dropWhile Grapheme.ws := by
              rw [← hcat, hwe, hbe]
              simp
            rw [wrapFinish]
            simp [hwe, hbe, hwrapped, hcur2, isEmpty_false_of_ne hdwne]
          · have hcat2 : st.cur ++ st.wsBuf = p.dropWhile Grapheme.ws := by
              rw [← hcat, hwe, List.append_nil]
            rw [wrapFinish]
            simp [hwe, isEmpty_false_of_ne hbe, isEmpty_false_of_ne hcur, hwrapped, hcat2,
              isEmpty_false_of_ne hdwne]
        · rw [wrapFinish]
          simp [isEmpty_false_of_ne hwe, isEmpty_false_of_ne hcur, hwrapped, hcat,
            isEmpty_false_of_ne hdwne]

/-- C9 counterexample: a logical line consisting of one ordinary space (total
display width 1 ≤ 5) with `trim` disabled wraps to a single **empty** line,
not to a line equal to the input: the end-of-line handling pushes an empty
line and discards the pending whitespace whenever nothing but whitespace was
seen, even with trimming off. -/
theorem c9_roundtrip_counterexample :
    lineWidth exC9line ≤ 5
    ∧ wrapLine 5 false exC9line ≠ [exC9line]
    ∧ wrapLine 5 false exC9line = [[]] := by
  refine ⟨by decide, ?_, by decide⟩
  decide

/-- C9 (amended): for a logical line whose graphemes all have positive display
width and whose total display width fits `max_width > 0`, the word-wrap
composer yields exactly one output line: the input minus its leading
whitespace run when `trim` is enabled; the input itself when `trim` is
disabled, except that an all-whitespace line yields an empty line.  (The
positive-width hypothesis excludes zero-width whitespace such as `"\t"`,
whose `unicode_width` is 0, on which the line can seal early and split; the
all-whitespace exception is forced by the counterexample.) -/
theorem c9_short_line_roundtrip_amended (maxW : Nat) (trim : Bool) (syms : List Grapheme)
    (hmax : 0 < maxW) (htot : lineWidth syms ≤ maxW) (hpos : ∀ g ∈ syms, 1 ≤ g.width) :
    wrapLine maxW trim syms =
      [if trim then syms.dropWhile Grapheme.ws
       else if syms.all Grapheme.ws then [] else syms] := by
  have h0 : lineWidth ([] : List Grapheme) = 0 := rfl
  have inv : WrapInv trim syms (syms.foldl (wrapStep maxW trim) initWrapSt) := by
    have h := wrapInv_foldl maxW trim syms [] initWrapSt (wrapInv_init trim)
      (by omega) hpos
    simpa using h
  rw [wrapLine]
  exact wrapFinish_eq trim syms _ inv

/-- Witness for the amended C9 on the line "a b" at `max_width = 5` with
trimming enabled. -/
theorem c9_short_line_roundtrip_amended_witness :
    (0 < 5 ∧ lineWidth exC9short ≤ 5 ∧ (∀ g ∈ exC9short, 1 ≤ g.width))
    ∧ wrapLine 5 true exC9short =
        [if true then exC9short.dropWhile Grapheme.ws
         else if exC9short.all Grapheme.ws then [] else exC9short] :=
  ⟨⟨by decide, by decide, by decide⟩,
    c9_short_line_roundtrip_amended 5 true exC9short (by decide) (by decide) (by decide)⟩

theorem ite_isEmpty_ne_nil (w : List (List Grapheme)) :
    (if w.isEmpty = true then ([[]] : List (List Grapheme)) else w) ≠ [] := by
  split
  · exact List.cons_ne_nil _ _
  · rename_i h
    intro hc
    rw [hc] at h
    exact h rfl

/-- Every logical line wraps to at least one output line. -/
theorem wrapLine_ne_nil (maxW : Nat) (trim : Bool) (syms : List Grapheme) :
    wrapLine maxW trim syms ≠ [] := by
  rw [wrapLine, wrapFinish]
  exact ite_isEmpty_ne_nil _

/-- C5 (the code violates the claim): at `max_width = 5` with trimming, on
the single logical line "aaaa宽 x" — every grapheme of width at most 5, so
the claim's over-wide-fragment exception does not apply — the word-wrap
composer's first emitted line is `a a a a 宽` with summed display width 6,
exceeding the bound.  (The forced flush of the over-long word "aaaa宽" puts
"aaaa" (width 4 < 5) into the current line without sealing it, and the word
boundary at the following space then appends `宽` to the same line before the
seal check runs.) -/
theorem c5_wordwrap_width_overflow_bug :
    (∀ g ∈ exC5line, g.width ≤ 5)
    ∧ (wordWrapAll 5 true [(exC5line, TextAlignment.left)]).map (fun t => t.2.1) = [6, 1]
    ∧ ∃ out ∈ wordWrapAll 5 true [(exC5line, TextAlignment.left)],
        5 < out.2.1 ∧ 5 < lineWidth out.1 := by
  refine ⟨by decide, by decide, ?_⟩
  decide
